import Mathlib

/-!
Shallow embedding of the `user_auth` Scrypto blueprint
(`src/user_auth/completed/lib.rs`).

The component state consists of two `HashMap`s (`pending_users`,
`approved_users`), a vault of `UserBadge` NFTs (`approved_users_vault`)
and the resource addresses fixed at instantiation.  We model

  * `HashMap` as an association list with overwrite-on-insert
    (`insertA`), lookup (`lookupA`) and entry removal (`eraseA`);
  * resource addresses as distinct natural-number constants, fixed by
    `instantiate_user_auth`;
  * non-fungible ids (`NonFungibleId::random()`) as a fresh-id counter
    `nextId` threaded through the state: every mint consumes the counter,
    so minted ids are pairwise distinct, which is what the ledger
    guarantees for randomly drawn non-fungible ids;
  * a `Bucket` holding one NFT as a `Badge` record (resource address,
    id, `username` payload);
  * the aborting operations of the source (`unwrap`, `assert_eq!`,
    `Vault::take_non_fungible` on a missing id, and the access-rule
    rejection) as `Except` errors named as in the specification: a
    rejected call leaves the component state untouched.
-/

namespace UserAuth

/-- Lookup in an association list, first entry wins (HashMap `get`). -/
def lookupA {α β : Type} [DecidableEq α] (k : α) : List (α × β) → Option β
  | [] => none
  | (k₁, v) :: rest => if k = k₁ then some v else lookupA k rest

/-- Insert into an association list, overwriting the entry with the same
key if present (HashMap `insert`). -/
def insertA {α β : Type} [DecidableEq α] (k : α) (v : β) : List (α × β) → List (α × β)
  | [] => [(k, v)]
  | (k₁, v₁) :: rest => if k = k₁ then (k, v) :: rest else (k₁, v₁) :: insertA k v rest

/-- Remove the entry with the given key (HashMap `remove_entry`). -/
def eraseA {α β : Type} [DecidableEq α] (k : α) : List (α × β) → List (α × β)
  | [] => []
  | (k₁, v₁) :: rest => if k = k₁ then rest else (k₁, v₁) :: eraseA k rest

/-- The keys of an association list. -/
def keysA {α β : Type} (l : List (α × β)) : List α := l.map Prod.fst

/-- The values of an association list. -/
def valsA {α β : Type} (l : List (α × β)) : List β := l.map Prod.snd

/-- Resource address of the admin badge minted by `instantiate_user_auth`. -/
def admin_badge_address : Nat := 0

/-- Resource address of the `TemporaryBadge` NFT resource. -/
def temporary_badge_address : Nat := 1

/-- Resource address of the `UserBadge` NFT resource. -/
def user_badge_address : Nat := 2

/-- A bucket holding one NFT: its resource address, its non-fungible id
and its `username` payload (`TemporaryBadge` / `UserBadge` data). -/
structure Badge where
  resource : Nat
  id : Nat
  username : String
deriving DecidableEq

/-- The errors of the workflow, named as in the specification.  In the
source these are aborts: `unwrap` on a missing `pending_users` key
(NotFound), the `assert_eq!` on the resource address
(WrongCredentialType), `unwrap` on a missing `approved_users` key
(NotApproved), the access-rule rejection (Unauthorized), and
`take_non_fungible` on an id absent from the vault (VaultMissing). -/
inductive AuthError where
  | UnauthorizedError
  | NotFoundError
  | WrongCredentialTypeError
  | NotApprovedError
  | VaultMissingError
deriving DecidableEq

/-- The mutable state of the `UserAuth` component: the two registries,
the vault of deposited `UserBadge` NFTs, and the fresh-id counter that
models non-fungible-id generation. -/
structure UserAuthState where
  pending_users : List (String × Nat)
  approved_users : List (Nat × Nat)
  approved_users_vault : List Badge
  nextId : Nat
deriving DecidableEq

/-- The component state right after `instantiate_user_auth`: both
registries and the vault are empty. -/
def initState : UserAuthState := ⟨[], [], [], 0⟩

/-- The name under which the gated method is registered in the access rules. -/
def approveMethodName : String := "approve_user"

/-- A sample username used in concrete scenarios. -/
def aliceName : String := "alice"

/-- A second sample username used in concrete scenarios. -/
def bobName : String := "bob"

/-- The access rule attached to a method. -/
inductive MethodRule where
  | requireAdmin
  | allowAll
deriving DecidableEq

/-- The access rules built at instantiation: the method named
`approve_user` requires the admin badge, every other method defaults to
being open to any caller. -/
def access_rule (method : String) : MethodRule :=
  if method = approveMethodName then MethodRule.requireAdmin else MethodRule.allowAll

/-- Whether a caller who does (not) present the admin badge may invoke a
method, per `access_rule`. -/
def authorized (method : String) (hasAdminBadge : Bool) : Bool :=
  match access_rule method with
  | MethodRule.requireAdmin => hasAdminBadge
  | MethodRule.allowAll => true

/-- `request_user`: mint a fresh `TemporaryBadge` NFT with payload
`{username}`, record `username → id` in `pending_users` (overwriting any
prior entry), and return the badge.  Never fails. -/
def request_user (username : String) (s : UserAuthState) : Badge × UserAuthState :=
  let temporary_badge : Badge := ⟨temporary_badge_address, s.nextId, username⟩
  (temporary_badge,
    { s with
      pending_users := insertA username temporary_badge.id s.pending_users
      nextId := s.nextId + 1 })

/-- `approve_user` method body: look up the pending entry (aborting with
NotFound when absent), mint a fresh `UserBadge` NFT with payload
`{username}`, record `temporary_badge_id → user_badge_id` in
`approved_users`, deposit the badge in `approved_users_vault`, and remove
the `pending_users` entry. -/
def approve_user (username : String) (s : UserAuthState) : Except AuthError UserAuthState :=
  match lookupA username s.pending_users with
  | none => Except.error AuthError.NotFoundError
  | some temporary_badge_id =>
    let user_badge : Badge := ⟨user_badge_address, s.nextId, username⟩
    Except.ok
      { s with
        approved_users := insertA temporary_badge_id user_badge.id s.approved_users
        approved_users_vault := s.approved_users_vault ++ [user_badge]
        pending_users := eraseA username s.pending_users
        nextId := s.nextId + 1 }

/-- An `approve_user` call as seen by a caller: the access rule is
checked before the method body runs, so a caller without the admin badge
is rejected with UnauthorizedError and no mutation happens. -/
def approve_user_call (hasAdminBadge : Bool) (username : String) (s : UserAuthState) :
    Except AuthError UserAuthState :=
  if authorized approveMethodName hasAdminBadge then approve_user username s
  else Except.error AuthError.UnauthorizedError

/-- `Vault::take_non_fungible`: remove the badge with the given id from
the vault, returning it with the rest of the vault; `none` models the
abort when no such badge is present. -/
def takeNF (nfid : Nat) : List Badge → Option (Badge × List Badge)
  | [] => none
  | b :: rest =>
    if b.id = nfid then some (b, rest)
    else
      match takeNF nfid rest with
      | some (b₁, rest₁) => some (b₁, b :: rest₁)
      | none => none

/-- `claim_user`: check the surrendered bucket is of the component's
temporary-badge resource (else WrongCredentialType), look up the owed
`UserBadge` id in `approved_users` (aborting with NotApproved when
absent), take that badge from `approved_users_vault`, remove the ledger
entry, burn the surrendered temporary badge (the bucket is consumed),
and return the `UserBadge`. -/
def claim_user (temporary_badge : Badge) (s : UserAuthState) :
    Except AuthError (Badge × UserAuthState) :=
  if temporary_badge.resource ≠ temporary_badge_address then
    Except.error AuthError.WrongCredentialTypeError
  else
    match lookupA temporary_badge.id s.approved_users with
    | none => Except.error AuthError.NotApprovedError
    | some user_badge_id =>
      match takeNF user_badge_id s.approved_users_vault with
      | none => Except.error AuthError.VaultMissingError
      | some (user_badge, vault₁) =>
        Except.ok
          (user_badge,
            { s with
              approved_users := eraseA temporary_badge.id s.approved_users
              approved_users_vault := vault₁ })

/-- The operations a caller can perform on the component, with the badge
a claim surrenders and whether an approve call presents the admin badge. -/
inductive Op where
  | request (username : String)
  | approve (hasAdminBadge : Bool) (username : String)
  | claim (temporary_badge : Badge)

/-- One method call: a rejected or aborting call leaves the state as it
was (atomicity of the enclosing transaction). -/
def runStep (s : UserAuthState) (op : Op) : UserAuthState :=
  match op with
  | Op.request u => (request_user u s).2
  | Op.approve h u =>
    match approve_user_call h u s with
    | Except.ok s₁ => s₁
    | Except.error _ => s
  | Op.claim b =>
    match claim_user b s with
    | Except.ok (_, s₁) => s₁
    | Except.error _ => s

/-- Run a sequence of method calls. -/
def run (ops : List Op) (s : UserAuthState) : UserAuthState := ops.foldl runStep s

/-- A component state reachable from a fresh instantiation. -/
def Reachable (s : UserAuthState) : Prop := ∃ ops, run ops initState = s

/-- The temporary-badge ids consumed by an operation when it is a
successful claim. -/
def opClaimed (op : Op) (s : UserAuthState) : List Nat :=
  match op with
  | Op.claim b =>
    match claim_user b s with
    | Except.ok _ => [b.id]
    | Except.error _ => []
  | _ => []

/-- The temporary-badge ids consumed by the successful claims along a
run, in order. -/
def claimedIds : List Op → UserAuthState → List Nat
  | [], _ => []
  | op :: rest, s => opClaimed op s ++ claimedIds rest (runStep s op)

/-- The bookkeeping invariant of the component: registry keys and values
are duplicate-free, pending temporary-badge ids and approved ledger keys
are disjoint, every recorded id was minted (is below the counter), and
every `UserBadge` id owed by the approval ledger is held in the vault. -/
structure Inv (s : UserAuthState) : Prop where
  pkeys_nd : (keysA s.pending_users).Nodup
  pvals_nd : (valsA s.pending_users).Nodup
  akeys_nd : (keysA s.approved_users).Nodup
  avals_nd : (valsA s.approved_users).Nodup
  vids_nd : (s.approved_users_vault.map Badge.id).Nodup
  disj : ∀ x ∈ valsA s.pending_users, x ∉ keysA s.approved_users
  pvals_lt : ∀ x ∈ valsA s.pending_users, x < s.nextId
  akeys_lt : ∀ x ∈ keysA s.approved_users, x < s.nextId
  avals_lt : ∀ x ∈ valsA s.approved_users, x < s.nextId
  vids_lt : ∀ x ∈ s.approved_users_vault.map Badge.id, x < s.nextId
  owed : ∀ p ∈ valsA s.approved_users, p ∈ s.approved_users_vault.map Badge.id

/-- An id that can never again be consumed: not pending, not in the
approval ledger, and already below the mint counter. -/
def Dead (x : Nat) (s : UserAuthState) : Prop :=
  x ∉ valsA s.pending_users ∧ x ∉ keysA s.approved_users ∧ x < s.nextId

/-! ### Association-list lemmas -/

theorem keysA_nil {α β : Type} : keysA ([] : List (α × β)) = [] := rfl

theorem keysA_cons {α β : Type} (p : α × β) (l : List (α × β)) :
    keysA (p :: l) = p.1 :: keysA l := rfl

theorem valsA_nil {α β : Type} : valsA ([] : List (α × β)) = [] := rfl

theorem valsA_cons {α β : Type} (p : α × β) (l : List (α × β)) :
    valsA (p :: l) = p.2 :: valsA l := rfl

theorem keysA_append {α β : Type} (l₁ l₂ : List (α × β)) :
    keysA (l₁ ++ l₂) = keysA l₁ ++ keysA l₂ := List.map_append _ _ _

theorem valsA_append {α β : Type} (l₁ l₂ : List (α × β)) :
    valsA (l₁ ++ l₂) = valsA l₁ ++ valsA l₂ := List.map_append _ _ _

theorem lookupA_mem_keys {α β : Type} [DecidableEq α] {k : α} {v : β} {l : List (α × β)}
    (h : lookupA k l = some v) : k ∈ keysA l := by
  induction l with
  | nil => simp [lookupA] at h
  | cons p rest ih =>
    obtain ⟨k₁, v₁⟩ := p
    rw [keysA_cons]
    by_cases hk : k = k₁
    · exact List.mem_cons.mpr (Or.inl hk)
    · exact List.mem_cons.mpr (Or.inr (ih (by simpa [lookupA, hk] using h)))

theorem lookupA_mem_vals {α β : Type} [DecidableEq α] {k : α} {v : β} {l : List (α × β)}
    (h : lookupA k l = some v) : v ∈ valsA l := by
  induction l with
  | nil => simp [lookupA] at h
  | cons p rest ih =>
    obtain ⟨k₁, v₁⟩ := p
    rw [valsA_cons]
    by_cases hk : k = k₁
    · have hv : v₁ = v := by simpa [lookupA, hk] using h
      exact List.mem_cons.mpr (Or.inl hv.symm)
    · exact List.mem_cons.mpr (Or.inr (ih (by simpa [lookupA, hk] using h)))

theorem lookupA_eq_none_of_not_mem {α β : Type} [DecidableEq α] {k : α} {l : List (α × β)}
    (h : k ∉ keysA l) : lookupA k l = none := by
  induction l with
  | nil => rfl
  | cons p rest ih =>
    obtain ⟨k₁, v₁⟩ := p
    rw [keysA_cons, List.mem_cons] at h
    push_neg at h
    simp [lookupA, h.1, ih h.2]

theorem mem_keys_insertA {α β : Type} [DecidableEq α] {x k : α} {v : β} {l : List (α × β)}
    (h : x ∈ keysA (insertA k v l)) : x = k ∨ x ∈ keysA l := by
  induction l with
  | nil =>
    left
    simpa [insertA, keysA_cons, keysA_nil] using h
  | cons p rest ih =>
    obtain ⟨k₁, v₁⟩ := p
    simp only [insertA] at h
    by_cases hk : k = k₁
    · rw [if_pos hk, keysA_cons] at h
      rw [keysA_cons]
      rcases List.mem_cons.mp h with h₁ | h₁
      · exact Or.inl h₁
      · exact Or.inr (List.mem_cons.mpr (Or.inr h₁))
    · rw [if_neg hk, keysA_cons] at h
      rw [keysA_cons]
      rcases List.mem_cons.mp h with h₁ | h₁
      · exact Or.inr (List.mem_cons.mpr (Or.inl h₁))
      · rcases ih h₁ with h₂ | h₂
        · exact Or.inl h₂
        · exact Or.inr (List.mem_cons.mpr (Or.inr h₂))

theorem mem_vals_insertA {α β : Type} [DecidableEq α] {k : α} {y v : β} {l : List (α × β)}
    (h : y ∈ valsA (insertA k v l)) : y = v ∨ y ∈ valsA l := by
  induction l with
  | nil =>
    left
    simpa [insertA, valsA_cons, valsA_nil] using h
  | cons p rest ih =>
    obtain ⟨k₁, v₁⟩ := p
    simp only [insertA] at h
    by_cases hk : k = k₁
    · rw [if_pos hk, valsA_cons] at h
      rw [valsA_cons]
      rcases List.mem_cons.mp h with h₁ | h₁
      · exact Or.inl h₁
      · exact Or.inr (List.mem_cons.mpr (Or.inr h₁))
    · rw [if_neg hk, valsA_cons] at h
      rw [valsA_cons]
      rcases List.mem_cons.mp h with h₁ | h₁
      · exact Or.inr (List.mem_cons.mpr (Or.inl h₁))
      · rcases ih h₁ with h₂ | h₂
        · exact Or.inl h₂
        · exact Or.inr (List.mem_cons.mpr (Or.inr h₂))

theorem keys_insertA_nodup {α β : Type} [DecidableEq α] {k : α} {v : β} {l : List (α × β)}
    (h : (keysA l).Nodup) : (keysA (insertA k v l)).Nodup := by
  induction l with
  | nil => simp [insertA, keysA_cons, keysA_nil]
  | cons p rest ih =>
    obtain ⟨k₁, v₁⟩ := p
    rw [keysA_cons, List.nodup_cons] at h
    simp only [insertA]
    by_cases hk : k = k₁
    · rw [if_pos hk, keysA_cons, List.nodup_cons]
      refine ⟨?_, h.2⟩
      rw [hk]
      exact h.1
    · rw [if_neg hk, keysA_cons, List.nodup_cons]
      refine ⟨?_, ih h.2⟩
      intro hmem
      rcases mem_keys_insertA hmem with h₁ | h₁
      · exact hk h₁.symm
      · exact h.1 h₁

theorem vals_insertA_nodup {α β : Type} [DecidableEq α] {k : α} {v : β} {l : List (α × β)}
    (hnd : (valsA l).Nodup) (hv : v ∉ valsA l) : (valsA (insertA k v l)).Nodup := by
  induction l with
  | nil => simp [insertA, valsA_cons, valsA_nil]
  | cons p rest ih =>
    obtain ⟨k₁, v₁⟩ := p
    rw [valsA_cons, List.nodup_cons] at hnd
    rw [valsA_cons, List.mem_cons] at hv
    push_neg at hv
    simp only [insertA]
    by_cases hk : k = k₁
    · rw [if_pos hk, valsA_cons, List.nodup_cons]
      exact ⟨hv.2, hnd.2⟩
    · rw [if_neg hk, valsA_cons, List.nodup_cons]
      refine ⟨?_, ih hnd.2 hv.2⟩
      intro hmem
      rcases mem_vals_insertA hmem with h₁ | h₁
      · exact hv.1 h₁.symm
      · exact hnd.1 h₁

theorem lookupA_insertA_self {α β : Type} [DecidableEq α] (k : α) (v : β) (l : List (α × β)) :
    lookupA k (insertA k v l) = some v := by
  induction l with
  | nil => simp [insertA, lookupA]
  | cons p rest ih =>
    obtain ⟨k₁, v₁⟩ := p
    simp only [insertA]
    by_cases hk : k = k₁
    · rw [if_pos hk]
      simp [lookupA]
    · rw [if_neg hk]
      simp [lookupA, hk, ih]

theorem lookupA_insertA_ne {α β : Type} [DecidableEq α] {k₀ k : α} (hne : k₀ ≠ k) (v : β)
    (l : List (α × β)) : lookupA k₀ (insertA k v l) = lookupA k₀ l := by
  induction l with
  | nil => simp [insertA, lookupA, hne]
  | cons p rest ih =>
    obtain ⟨k₁, v₁⟩ := p
    simp only [insertA]
    by_cases hk : k = k₁
    · rw [if_pos hk]
      have hne₁ : k₀ ≠ k₁ := by
        rw [← hk]
        exact hne
      simp [lookupA, hne, hne₁]
    · rw [if_neg hk]
      simp only [lookupA, ih]

theorem insertA_of_not_mem {α β : Type} [DecidableEq α] {k : α} {l : List (α × β)} (v : β)
    (h : k ∉ keysA l) : insertA k v l = l ++ [(k, v)] := by
  induction l with
  | nil => simp [insertA]
  | cons p rest ih =>
    obtain ⟨k₁, v₁⟩ := p
    rw [keysA_cons, List.mem_cons] at h
    push_neg at h
    simp only [insertA, if_neg h.1]
    rw [ih h.2]
    simp

theorem eraseA_sublist {α β : Type} [DecidableEq α] (k : α) (l : List (α × β)) :
    (eraseA k l).Sublist l := by
  induction l with
  | nil => simp [eraseA]
  | cons p rest ih =>
    obtain ⟨k₁, v₁⟩ := p
    simp only [eraseA]
    by_cases hk : k = k₁
    · rw [if_pos hk]
      exact List.sublist_cons_self _ _
    · rw [if_neg hk]
      exact List.Sublist.cons₂ (k₁, v₁) ih

theorem keysA_eraseA_sublist {α β : Type} [DecidableEq α] (k : α) (l : List (α × β)) :
    (keysA (eraseA k l)).Sublist (keysA l) :=
  List.Sublist.map Prod.fst (eraseA_sublist k l)

theorem valsA_eraseA_sublist {α β : Type} [DecidableEq α] (k : α) (l : List (α × β)) :
    (valsA (eraseA k l)).Sublist (valsA l) :=
  List.Sublist.map Prod.snd (eraseA_sublist k l)

theorem not_mem_keys_eraseA {α β : Type} [DecidableEq α] {k : α} {l : List (α × β)}
    (hnd : (keysA l).Nodup) : k ∉ keysA (eraseA k l) := by
  induction l with
  | nil => simp [eraseA, keysA_nil]
  | cons p rest ih =>
    obtain ⟨k₁, v₁⟩ := p
    rw [keysA_cons, List.nodup_cons] at hnd
    simp only [eraseA]
    by_cases hk : k = k₁
    · rw [if_pos hk]
      intro hmem
      exact hnd.1 (hk ▸ hmem)
    · rw [if_neg hk, keysA_cons]
      intro hmem
      rcases List.mem_cons.mp hmem with h | h
      · exact hk h
      · exact ih hnd.2 h

theorem lookupA_not_mem_vals_eraseA {α β : Type} [DecidableEq α] {k : α} {v : β}
    {l : List (α × β)} (h : lookupA k l = some v) (hnd : (valsA l).Nodup) :
    v ∉ valsA (eraseA k l) := by
  induction l with
  | nil => simp [lookupA] at h
  | cons p rest ih =>
    obtain ⟨k₁, v₁⟩ := p
    rw [valsA_cons, List.nodup_cons] at hnd
    simp only [eraseA]
    by_cases hk : k = k₁
    · rw [if_pos hk]
      have hv : v₁ = v := by simpa [lookupA, hk] using h
      exact fun hmem => hnd.1 (hv.symm ▸ hmem)
    · have hlook : lookupA k rest = some v := by simpa [lookupA, hk] using h
      rw [if_neg hk, valsA_cons]
      intro hmem
      rcases List.mem_cons.mp hmem with h₁ | h₁
      · exact hnd.1 (h₁ ▸ lookupA_mem_vals hlook)
      · exact ih hlook hnd.2 h₁

theorem takeNF_sublist {nfid : Nat} : ∀ {v : List Badge} {b : Badge} {v₁ : List Badge},
    takeNF nfid v = some (b, v₁) → v₁.Sublist v := by
  intro v
  induction v with
  | nil => intro b v₁ h; simp [takeNF] at h
  | cons b₀ rest ih =>
    intro b v₁ h
    simp only [takeNF] at h
    by_cases hb : b₀.id = nfid
    · rw [if_pos hb] at h
      obtain ⟨rfl, rfl⟩ : b₀ = b ∧ rest = v₁ := by
        constructor <;> [skip; skip] <;> cases h <;> rfl
      exact List.sublist_cons_self _ _
    · rw [if_neg hb] at h
      cases htake : takeNF nfid rest with
      | none => rw [htake] at h; cases h
      | some p =>
        obtain ⟨b₁, rest₁⟩ := p
        rw [htake] at h
        cases h
        exact List.Sublist.cons₂ b₀ (ih htake)

theorem takeNF_isSome {nfid : Nat} : ∀ {v : List Badge}, nfid ∈ v.map Badge.id →
    ∃ b v₁, takeNF nfid v = some (b, v₁) := by
  intro v
  induction v with
  | nil => intro h; simp at h
  | cons b₀ rest ih =>
    intro h
    simp only [takeNF]
    by_cases hb : b₀.id = nfid
    · rw [if_pos hb]
      exact ⟨b₀, rest, rfl⟩
    · rw [if_neg hb]
      rw [List.map_cons] at h
      have hmem : nfid ∈ rest.map Badge.id := by
        rcases List.mem_cons.mp h with h₁ | h₁
        · exact absurd h₁.symm hb
        · exact h₁
      obtain ⟨b₁, rest₁, htake⟩ := ih hmem
      rw [htake]
      exact ⟨b₁, b₀ :: rest₁, rfl⟩

theorem takeNF_mem_ids {nfid q : Nat} : ∀ {v : List Badge} {b : Badge} {v₁ : List Badge},
    takeNF nfid v = some (b, v₁) → q ∈ v.map Badge.id → q ≠ nfid → q ∈ v₁.map Badge.id := by
  intro v
  induction v with
  | nil => intro b v₁ h; simp [takeNF] at h
  | cons b₀ rest ih =>
    intro b v₁ h hq hne
    rw [List.map_cons] at hq
    simp only [takeNF] at h
    by_cases hb : b₀.id = nfid
    · rw [if_pos hb] at h
      cases h
      rcases List.mem_cons.mp hq with h₁ | h₁
      · exact absurd (h₁.trans hb) hne
      · exact h₁
    · rw [if_neg hb] at h
      cases htake : takeNF nfid rest with
      | none => rw [htake] at h; cases h
      | some p =>
        obtain ⟨b₁, rest₁⟩ := p
        rw [htake] at h
        cases h
        rw [List.map_cons]
        rcases List.mem_cons.mp hq with h₁ | h₁
        · exact List.mem_cons.mpr (Or.inl h₁)
        · exact List.mem_cons.mpr (Or.inr (ih htake h₁ hne))


/-! ### Shape of successful and failing calls -/

theorem authorized_approve_true : authorized approveMethodName true = true := rfl

theorem authorized_approve_false : authorized approveMethodName false = false := rfl

theorem approve_ok_facts {hAdm : Bool} {u : String} {s s₁ : UserAuthState}
    (hok : approve_user_call hAdm u s = Except.ok s₁) :
    hAdm = true ∧ ∃ t, lookupA u s.pending_users = some t ∧
      s₁ = { s with
             approved_users := insertA t s.nextId s.approved_users
             approved_users_vault := s.approved_users_vault ++ [⟨user_badge_address, s.nextId, u⟩]
             pending_users := eraseA u s.pending_users
             nextId := s.nextId + 1 } := by
  cases hAdm with
  | false =>
    rw [approve_user_call, authorized_approve_false] at hok
    simp at hok
  | true =>
    rw [approve_user_call, authorized_approve_true] at hok
    simp only [if_pos] at hok
    refine ⟨rfl, ?_⟩
    cases hl : lookupA u s.pending_users with
    | none => rw [approve_user, hl] at hok; cases hok
    | some t =>
      rw [approve_user, hl] at hok
      exact ⟨t, rfl, (Except.ok.inj hok).symm⟩

theorem claim_ok_facts {b ub : Badge} {s s₁ : UserAuthState}
    (hok : claim_user b s = Except.ok (ub, s₁)) :
    b.resource = temporary_badge_address ∧
    ∃ p, lookupA b.id s.approved_users = some p ∧
      ∃ v₁, takeNF p s.approved_users_vault = some (ub, v₁) ∧
        s₁ = { s with
               approved_users := eraseA b.id s.approved_users
               approved_users_vault := v₁ } := by
  rw [claim_user] at hok
  split at hok
  · cases hok
  · rename_i hres
    refine ⟨not_not.mp (by simpa using hres), ?_⟩
    split at hok
    · cases hok
    · rename_i p hl
      refine ⟨p, hl, ?_⟩
      split at hok
      · cases hok
      · rename_i ub₁ v₁ htk
        obtain ⟨h₁, h₂⟩ := Prod.mk.inj (Except.ok.inj hok)
        rw [h₁] at htk
        exact ⟨v₁, htk, h₂.symm⟩

/-! ### The invariant holds in every reachable state -/

theorem inv_init : Inv initState := by
  constructor <;> simp [initState, keysA_nil, valsA_nil]

theorem inv_request {s : UserAuthState} (u : String) (hs : Inv s) :
    Inv (request_user u s).2 := by
  obtain ⟨pk, pv, ak, av, vn, dj, plt, alt, avlt, vlt, ow⟩ := hs
  have hfresh : s.nextId ∉ valsA s.pending_users := fun hmem => lt_irrefl _ (plt _ hmem)
  refine ⟨keys_insertA_nodup pk, vals_insertA_nodup pv hfresh, ak, av, vn, ?_, ?_,
    fun x hx => Nat.lt_succ_of_lt (alt x hx), fun x hx => Nat.lt_succ_of_lt (avlt x hx),
    fun x hx => Nat.lt_succ_of_lt (vlt x hx), ow⟩
  · intro x hx
    rcases mem_vals_insertA hx with h | h
    · exact fun hmem => lt_irrefl _ (h ▸ alt x hmem)
    · exact dj x h
  · intro x hx
    rcases mem_vals_insertA hx with h | h
    · exact h ▸ Nat.lt_succ_self _
    · exact Nat.lt_succ_of_lt (plt x h)

theorem inv_approve {hAdm : Bool} {u : String} {s s₁ : UserAuthState} (hs : Inv s)
    (hok : approve_user_call hAdm u s = Except.ok s₁) : Inv s₁ := by
  obtain ⟨pk, pv, ak, av, vn, dj, plt, alt, avlt, vlt, ow⟩ := hs
  obtain ⟨-, t, hl, rfl⟩ := approve_ok_facts hok
  have htv : t ∈ valsA s.pending_users := lookupA_mem_vals hl
  have htK : t ∉ keysA s.approved_users := dj t htv
  have happ : insertA t s.nextId s.approved_users = s.approved_users ++ [(t, s.nextId)] :=
    insertA_of_not_mem _ htK
  have hkeys : keysA (insertA t s.nextId s.approved_users) =
      keysA s.approved_users ++ [t] := by rw [happ, keysA_append]; rfl
  have hvals : valsA (insertA t s.nextId s.approved_users) =
      valsA s.approved_users ++ [s.nextId] := by rw [happ, valsA_append]; rfl
  have hvids : (s.approved_users_vault ++
      [(⟨user_badge_address, s.nextId, u⟩ : Badge)]).map Badge.id =
      s.approved_users_vault.map Badge.id ++ [s.nextId] := by
    rw [List.map_append]
    rfl
  constructor
  · exact List.Nodup.sublist (keysA_eraseA_sublist u s.pending_users) pk
  · exact List.Nodup.sublist (valsA_eraseA_sublist u s.pending_users) pv
  · rw [hkeys]
    exact List.Nodup.append ak (List.nodup_singleton t)
      (fun x hx hx₁ => htK ((List.mem_singleton.mp hx₁) ▸ hx))
  · rw [hvals]
    refine List.Nodup.append av (List.nodup_singleton _) ?_
    intro x hx hx₁
    exact lt_irrefl _ ((List.mem_singleton.mp hx₁) ▸ avlt x hx)
  · rw [hvids]
    refine List.Nodup.append vn (List.nodup_singleton _) ?_
    intro x hx hx₁
    exact lt_irrefl _ ((List.mem_singleton.mp hx₁) ▸ vlt x hx)
  · intro x hx
    have hx₀ : x ∈ valsA s.pending_users := (valsA_eraseA_sublist u s.pending_users).subset hx
    have hxt : x ≠ t := fun hxeq => lookupA_not_mem_vals_eraseA hl pv (hxeq ▸ hx)
    rw [hkeys]
    intro hmem
    rcases List.mem_append.mp hmem with h | h
    · exact dj x hx₀ h
    · exact hxt (List.mem_singleton.mp h)
  · intro x hx
    exact Nat.lt_succ_of_lt (plt x ((valsA_eraseA_sublist u s.pending_users).subset hx))
  · intro x hx
    rw [hkeys] at hx
    rcases List.mem_append.mp hx with h | h
    · exact Nat.lt_succ_of_lt (alt x h)
    · rw [List.mem_singleton.mp h]
      exact Nat.lt_succ_of_lt (plt t htv)
  · intro x hx
    rw [hvals] at hx
    rcases List.mem_append.mp hx with h | h
    · exact Nat.lt_succ_of_lt (avlt x h)
    · rw [List.mem_singleton.mp h]
      exact Nat.lt_succ_self _
  · intro x hx
    rw [hvids] at hx
    rcases List.mem_append.mp hx with h | h
    · exact Nat.lt_succ_of_lt (vlt x h)
    · rw [List.mem_singleton.mp h]
      exact Nat.lt_succ_self _
  · intro p hp
    rw [hvals] at hp
    rw [hvids]
    rcases List.mem_append.mp hp with h | h
    · exact List.mem_append.mpr (Or.inl (ow p h))
    · exact List.mem_append.mpr (Or.inr h)

theorem inv_claim {b ub : Badge} {s s₁ : UserAuthState} (hs : Inv s)
    (hok : claim_user b s = Except.ok (ub, s₁)) : Inv s₁ := by
  obtain ⟨pk, pv, ak, av, vn, dj, plt, alt, avlt, vlt, ow⟩ := hs
  obtain ⟨-, p, hl, v₁, htk, rfl⟩ := claim_ok_facts hok
  constructor
  · exact pk
  · exact pv
  · exact List.Nodup.sublist (keysA_eraseA_sublist b.id s.approved_users) ak
  · exact List.Nodup.sublist (valsA_eraseA_sublist b.id s.approved_users) av
  · exact List.Nodup.sublist (List.Sublist.map Badge.id (takeNF_sublist htk)) vn
  · intro x hx
    intro hmem
    exact dj x hx ((keysA_eraseA_sublist b.id s.approved_users).subset hmem)
  · exact fun x hx => plt x hx
  · exact fun x hx => alt x ((keysA_eraseA_sublist b.id s.approved_users).subset hx)
  · exact fun x hx => avlt x ((valsA_eraseA_sublist b.id s.approved_users).subset hx)
  · exact fun x hx => vlt x ((List.Sublist.map Badge.id (takeNF_sublist htk)).subset hx)
  · intro q hq
    have hq₀ : q ∈ valsA s.approved_users :=
      (valsA_eraseA_sublist b.id s.approved_users).subset hq
    have hqp : q ≠ p := fun hqeq => lookupA_not_mem_vals_eraseA hl av (hqeq ▸ hq)
    exact takeNF_mem_ids htk (ow q hq₀) hqp

theorem inv_step {s : UserAuthState} (op : Op) (hs : Inv s) : Inv (runStep s op) := by
  cases op with
  | request u => exact inv_request u hs
  | approve hAdm u =>
    cases hcall : approve_user_call hAdm u s with
    | ok s₁ =>
      simp only [runStep, hcall]
      exact inv_approve hs hcall
    | error e => simpa only [runStep, hcall] using hs
  | claim b =>
    cases hcall : claim_user b s with
    | ok r =>
      obtain ⟨ub, s₁⟩ := r
      simp only [runStep, hcall]
      exact inv_claim hs hcall
    | error e => simpa only [runStep, hcall] using hs

theorem inv_run {s : UserAuthState} (ops : List Op) (hs : Inv s) : Inv (run ops s) := by
  induction ops generalizing s with
  | nil => exact hs
  | cons op rest ih =>
    simp only [run, List.foldl]
    exact ih (inv_step op hs)

theorem inv_reachable {s : UserAuthState} (hs : Reachable s) : Inv s := by
  obtain ⟨ops, rfl⟩ := hs
  exact inv_run ops inv_init

/-! ### Consumed ids stay consumed -/

theorem dead_step {x : Nat} {s : UserAuthState} (op : Op) (hd : Dead x s) :
    Dead x (runStep s op) := by
  obtain ⟨hp, ha, hlt⟩ := hd
  cases op with
  | request u =>
    refine ⟨?_, ha, Nat.lt_succ_of_lt hlt⟩
    intro hmem
    rcases mem_vals_insertA hmem with h | h
    · exact lt_irrefl _ (h ▸ hlt)
    · exact hp h
  | approve hAdm u =>
    cases hcall : approve_user_call hAdm u s with
    | error e => exact (by simpa only [runStep, hcall] using ⟨hp, ha, hlt⟩)
    | ok s₁ =>
      simp only [runStep, hcall]
      obtain ⟨-, t, hl, rfl⟩ := approve_ok_facts hcall
      refine ⟨?_, ?_, Nat.lt_succ_of_lt hlt⟩
      · exact fun hmem => hp ((valsA_eraseA_sublist u s.pending_users).subset hmem)
      · intro hmem
        rcases mem_keys_insertA hmem with h | h
        · exact hp (h ▸ lookupA_mem_vals hl)
        · exact ha h
  | claim b =>
    cases hcall : claim_user b s with
    | error e => exact (by simpa only [runStep, hcall] using ⟨hp, ha, hlt⟩)
    | ok r =>
      obtain ⟨ub, s₁⟩ := r
      simp only [runStep, hcall]
      obtain ⟨-, p, hl, v₁, htk, rfl⟩ := claim_ok_facts hcall
      exact ⟨hp, fun hmem => ha ((keysA_eraseA_sublist b.id s.approved_users).subset hmem), hlt⟩

theorem claim_ok_dead {b ub : Badge} {s s₁ : UserAuthState} (hs : Inv s)
    (hok : claim_user b s = Except.ok (ub, s₁)) : Dead b.id s₁ := by
  obtain ⟨-, p, hl, v₁, htk, rfl⟩ := claim_ok_facts hok
  have hkey : b.id ∈ keysA s.approved_users := lookupA_mem_keys hl
  exact ⟨fun hmem => hs.disj b.id hmem hkey, not_mem_keys_eraseA hs.akeys_nd,
    hs.akeys_lt b.id hkey⟩

theorem dead_not_claimed {x : Nat} : ∀ (ops : List Op) (s : UserAuthState), Dead x s →
    x ∉ claimedIds ops s := by
  intro ops
  induction ops with
  | nil =>
    intro s hd
    simp [claimedIds]
  | cons op rest ih =>
    intro s hd
    simp only [claimedIds]
    intro hmem
    rcases List.mem_append.mp hmem with h | h
    · obtain ⟨hp, ha, hlt⟩ := hd
      cases op with
      | request u => simp [opClaimed] at h
      | approve hAdm u => simp [opClaimed] at h
      | claim b =>
        cases hcall : claim_user b s with
        | error e => simp [opClaimed, hcall] at h
        | ok r =>
          obtain ⟨ub, s₁⟩ := r
          have hx : x = b.id := by simpa [opClaimed, hcall] using h
          obtain ⟨-, p, hl, -⟩ := claim_ok_facts hcall
          exact ha (hx ▸ lookupA_mem_keys hl)
    · exact ih (runStep s op) (dead_step op hd) h

theorem claimedIds_nodup {s : UserAuthState} : ∀ (ops : List Op), Inv s →
    (claimedIds ops s).Nodup := by
  intro ops
  induction ops generalizing s with
  | nil =>
    intro hs
    simp [claimedIds]
  | cons op rest ih =>
    intro hs
    simp only [claimedIds]
    cases op with
    | request u =>
      simpa only [opClaimed, List.nil_append] using ih (inv_step (Op.request u) hs)
    | approve hAdm u =>
      simpa only [opClaimed, List.nil_append] using ih (inv_step (Op.approve hAdm u) hs)
    | claim b =>
      cases hcall : claim_user b s with
      | error e =>
        simpa only [opClaimed, hcall, List.nil_append] using ih (inv_step (Op.claim b) hs)
      | ok r =>
        obtain ⟨ub, s₁⟩ := r
        have hrun : runStep s (Op.claim b) = s₁ := by simp only [runStep, hcall]
        simp only [opClaimed, hcall, List.singleton_append, List.nodup_cons, hrun]
        refine ⟨?_, ?_⟩
        · exact dead_not_claimed rest s₁ (claim_ok_dead hs hcall)
        · exact ih (by rw [← hrun]; exact inv_step (Op.claim b) hs)


/-! ### The claims -/

/-- Claim C1: from a fresh component, `request_user u`, then
`approve_user u` with the admin badge, then `claim_user` with the exact
temporary badge returned by the request, yields a permanent `UserBadge`
whose payload username is `u`, and the approval ledger (`approved_users`)
is empty afterwards. -/
theorem request_approve_claim_roundtrip (u : String) :
    ∃ s₂ ub s₃,
      approve_user_call true u (request_user u initState).2 = Except.ok s₂ ∧
      claim_user (request_user u initState).1 s₂ = Except.ok (ub, s₃) ∧
      ub.username = u ∧ ub.resource = user_badge_address ∧ s₃.approved_users = [] := by
  refine ⟨⟨[], [(0, 1)], [⟨user_badge_address, 1, u⟩], 2⟩, ⟨user_badge_address, 1, u⟩,
    ⟨[], [], [], 2⟩, ?_, ?_, rfl, rfl, rfl⟩
  · simp [request_user, approve_user_call, approve_user, authorized, access_rule, initState,
      insertA, eraseA, lookupA]
  · simp [request_user, claim_user, initState, lookupA, takeNF, eraseA,
      temporary_badge_address, user_badge_address]

/-- Claim C2: a successful `claim_user` removes its temporary-badge id
from the approval ledger (the surrendered bucket itself is consumed, i.e.
burnt), and along every execution from a fresh component the ids consumed
by successful claims are pairwise distinct: the approved-to-delivered
hand-off happens at most once per temporary-credential id. -/
theorem claim_exactly_once :
    (∀ (b ub : Badge) (s s₁ : UserAuthState), Inv s →
        claim_user b s = Except.ok (ub, s₁) →
        lookupA b.id s₁.approved_users = none) ∧
    (∀ ops : List Op, (claimedIds ops initState).Nodup) := by
  constructor
  · intro b ub s s₁ hs hok
    obtain ⟨-, p, hl, v₁, htk, rfl⟩ := claim_ok_facts hok
    exact lookupA_eq_none_of_not_mem (not_mem_keys_eraseA hs.akeys_nd)
  · intro ops
    exact claimedIds_nodup ops inv_init

/-- Witness for the hypotheses of `claim_exactly_once`: a concrete
successful claim whose ledger entry is gone afterwards. -/
theorem claim_exactly_once_witness :
    lookupA (Badge.mk temporary_badge_address 0 aliceName).id
      (UserAuthState.mk [] [] [] 2).approved_users = none :=
  claim_exactly_once.1 ⟨temporary_badge_address, 0, aliceName⟩
    ⟨user_badge_address, 1, aliceName⟩
    ⟨[], [(0, 1)], [⟨user_badge_address, 1, aliceName⟩], 2⟩ ⟨[], [], [], 2⟩
    (by constructor <;> decide) rfl

/-- Claim C3: after `request_user u` then `approve_user u` with the admin
badge (from a fresh component), the approval ledger holds exactly one
entry, keyed by the temporary-badge id issued by the request; the minted
permanent badge sits in the component vault; and `u` is no longer in the
request registry. -/
theorem approve_after_request_state (u : String) :
    ∃ s₂ pid,
      approve_user_call true u (request_user u initState).2 = Except.ok s₂ ∧
      s₂.approved_users = [((request_user u initState).1.id, pid)] ∧
      (⟨user_badge_address, pid, u⟩ : Badge) ∈ s₂.approved_users_vault ∧
      lookupA u s₂.pending_users = none := by
  refine ⟨⟨[], [(0, 1)], [⟨user_badge_address, 1, u⟩], 2⟩, 1, ?_, rfl, ?_, rfl⟩
  · simp [request_user, approve_user_call, approve_user, authorized, access_rule, initState,
      insertA, eraseA, lookupA]
  · simp

/-- Claim C4: an `approve_user` call without the admin badge is rejected
with UnauthorizedError before the method body runs, so the state is
untouched; and per the access rules `approve_user` is the only gated
method, every other method being callable by anyone. -/
theorem approve_only_gated_method :
    (∀ (u : String) (s : UserAuthState),
        approve_user_call false u s = Except.error AuthError.UnauthorizedError ∧
        runStep s (Op.approve false u) = s) ∧
    access_rule approveMethodName = MethodRule.requireAdmin ∧
    (∀ method : String,
        access_rule method = MethodRule.requireAdmin ↔ method = approveMethodName) := by
  refine ⟨?_, rfl, ?_⟩
  · intro u s
    have hcall : approve_user_call false u s = Except.error AuthError.UnauthorizedError := by
      rw [approve_user_call, authorized_approve_false]
      simp
    exact ⟨hcall, by simp [runStep, hcall]⟩
  · intro method
    rw [access_rule]
    by_cases h : method = approveMethodName
    · simp [h]
    · simp [h]

/-- Witness for `approve_only_gated_method`: the unauthorized rejection
at a concrete username and state. -/
theorem approve_only_gated_method_witness :
    approve_user_call false aliceName initState = Except.error AuthError.UnauthorizedError :=
  (approve_only_gated_method.1 aliceName initState).1

/-- Claim C5: `approve_user u` with the admin badge fails with
NotFoundError when `u` has no pending entry, and the state is unchanged. -/
theorem approve_unknown_user_fails (u : String) (s : UserAuthState)
    (h : lookupA u s.pending_users = none) :
    approve_user_call true u s = Except.error AuthError.NotFoundError ∧
    runStep s (Op.approve true u) = s := by
  have hbody : approve_user u s = Except.error AuthError.NotFoundError := by
    rw [approve_user, h]
  have hcall : approve_user_call true u s = Except.error AuthError.NotFoundError := by
    rw [approve_user_call, authorized_approve_true]
    simpa using hbody
  exact ⟨hcall, by simp [runStep, hcall]⟩

/-- Witness for `approve_unknown_user_fails`: approving a user that was
never requested on the fresh component. -/
theorem approve_unknown_user_fails_witness :
    approve_user_call true aliceName initState = Except.error AuthError.NotFoundError :=
  (approve_unknown_user_fails aliceName initState rfl).1

/-- Claim C6: `claim_user` with a bucket whose resource is not the
component's temporary-badge resource fails with WrongCredentialTypeError,
leaving the registries and the vault unchanged. -/
theorem claim_wrong_resource_fails (b : Badge) (s : UserAuthState)
    (h : b.resource ≠ temporary_badge_address) :
    claim_user b s = Except.error AuthError.WrongCredentialTypeError ∧
    runStep s (Op.claim b) = s := by
  have hbody : claim_user b s = Except.error AuthError.WrongCredentialTypeError := by
    rw [claim_user, if_pos h]
  exact ⟨hbody, by simp [runStep, hbody]⟩

/-- Witness for `claim_wrong_resource_fails`: surrendering a `UserBadge`
instead of a `TemporaryBadge`. -/
theorem claim_wrong_resource_fails_witness :
    claim_user ⟨user_badge_address, 0, aliceName⟩ initState =
      Except.error AuthError.WrongCredentialTypeError :=
  (claim_wrong_resource_fails ⟨user_badge_address, 0, aliceName⟩ initState (by decide)).1

/-- Claim C7: `claim_user` with a badge of the right resource whose id
has no approval-ledger entry (never approved, or already claimed) fails
with NotApprovedError and leaves the state unchanged. -/
theorem claim_unapproved_fails (b : Badge) (s : UserAuthState)
    (hres : b.resource = temporary_badge_address)
    (h : lookupA b.id s.approved_users = none) :
    claim_user b s = Except.error AuthError.NotApprovedError ∧
    runStep s (Op.claim b) = s := by
  have hbody : claim_user b s = Except.error AuthError.NotApprovedError := by
    rw [claim_user, if_neg (by simp [hres]), h]
  exact ⟨hbody, by simp [runStep, hbody]⟩

/-- Witness for `claim_unapproved_fails`: the spec scenario, claiming
right after `request_user bobName` with no approval in between. -/
theorem claim_unapproved_fails_witness :
    claim_user (request_user bobName initState).1 (request_user bobName initState).2 =
      Except.error AuthError.NotApprovedError :=
  (claim_unapproved_fails (request_user bobName initState).1
    (request_user bobName initState).2 rfl rfl).1

/-- Claim C8: `request_user u` succeeds for every username and every
state: it returns a fresh temporary badge with payload `u`, records
`u ↦ badge id` in the request registry (overwriting any prior entry for
`u`), and its only state effects are that registry write and the mint
(the counter bump); other usernames, the approval ledger and the vault
are untouched. -/
theorem request_always_succeeds (u u₁ : String) (s : UserAuthState) :
    (request_user u s).1.resource = temporary_badge_address ∧
    (request_user u s).1.username = u ∧
    (request_user u s).1.id = s.nextId ∧
    lookupA u (request_user u s).2.pending_users = some (request_user u s).1.id ∧
    (u₁ ≠ u → lookupA u₁ (request_user u s).2.pending_users = lookupA u₁ s.pending_users) ∧
    (request_user u s).2.approved_users = s.approved_users ∧
    (request_user u s).2.approved_users_vault = s.approved_users_vault ∧
    (request_user u s).2.nextId = s.nextId + 1 := by
  refine ⟨rfl, rfl, rfl, ?_, ?_, rfl, rfl, rfl⟩
  · exact lookupA_insertA_self u s.nextId s.pending_users
  · intro hne
    exact lookupA_insertA_ne hne s.nextId s.pending_users

/-- Witness for `request_always_succeeds`: a duplicate request for a
username already pending overwrites its registry entry while another
username's entry is untouched. -/
theorem request_always_succeeds_witness :
    lookupA aliceName
        (request_user aliceName (request_user aliceName initState).2).2.pending_users =
      some (request_user aliceName (request_user aliceName initState).2).1.id ∧
    lookupA bobName
        (request_user aliceName (request_user aliceName initState).2).2.pending_users =
      lookupA bobName (request_user aliceName initState).2.pending_users :=
  ⟨(request_always_succeeds aliceName bobName (request_user aliceName initState).2).2.2.2.1,
    (request_always_succeeds aliceName bobName
      (request_user aliceName initState).2).2.2.2.2.1 (by decide)⟩

/-- Claim C9 counterexample: after `request alice; approve alice;
request alice` the approved permanent credential is NOT permanently
orphaned: the single further operation `claim_user` with the original
temporary badge (still held by the requester, its ledger entry `0 ↦ 1`
untouched by the re-request) withdraws the permanent credential from the
pool. -/
theorem rerequest_orphan_counterexample :
    (⟨user_badge_address, 1, aliceName⟩ : Badge) ∈
      (run [Op.request aliceName, Op.approve true aliceName, Op.request aliceName]
        initState).approved_users_vault ∧
    claim_user ⟨temporary_badge_address, 0, aliceName⟩
        (run [Op.request aliceName, Op.approve true aliceName, Op.request aliceName]
          initState) =
      Except.ok (⟨user_badge_address, 1, aliceName⟩,
        ⟨[(aliceName, 2)], [], [], 3⟩) ∧
    (⟨user_badge_address, 1, aliceName⟩ : Badge) ∉
      ([] : List Badge) := by
  exact ⟨by decide, rfl, by decide⟩

/-- Claim C9 amended: re-requesting `u` after `request u; approve u`
re-enters the pending state for `u` with the freshly minted temporary
badge id, and the prior approval survives: the permanent credential in
the pool is not orphaned, since claiming with the original temporary
badge still withdraws it. -/
theorem rerequest_reenters_pending_keeps_claimable (u : String) :
    lookupA u
        (run [Op.request u, Op.approve true u, Op.request u] initState).pending_users =
      some 2 ∧
    ∃ s₄, claim_user (request_user u initState).1
        (run [Op.request u, Op.approve true u, Op.request u] initState) =
        Except.ok (⟨user_badge_address, 1, u⟩, s₄) ∧
      (⟨user_badge_address, 1, u⟩ : Badge) ∉ s₄.approved_users_vault := by
  have h₃ : run [Op.request u, Op.approve true u, Op.request u] initState =
      ⟨[(u, 2)], [(0, 1)], [⟨user_badge_address, 1, u⟩], 3⟩ := by
    simp [run, runStep, request_user, approve_user_call, approve_user, authorized,
      access_rule, initState, insertA, eraseA, lookupA]
  rw [h₃]
  refine ⟨by simp [lookupA], ⟨[(u, 2)], [], [], 3⟩, ?_, by simp⟩
  simp [request_user, claim_user, initState, lookupA, takeNF, eraseA,
    temporary_badge_address, user_badge_address]

/-- Claim C10: the fresh component satisfies the bookkeeping invariant,
every operation preserves it, every reachable state satisfies it, under
it every permanent-credential id recorded in the approval ledger is held
in the pool (so the vault withdrawal in `claim_user` succeeds), and
consequently in any reachable state a right-kind badge with a ledger
entry can always complete its claim. -/
theorem ledger_pool_invariant :
    Inv initState ∧
    (∀ (s : UserAuthState) (op : Op), Inv s → Inv (runStep s op)) ∧
    (∀ s : UserAuthState, Reachable s → Inv s) ∧
    (∀ (s : UserAuthState) (b : Badge) (p : Nat), Inv s →
        lookupA b.id s.approved_users = some p →
        ∃ ub v₁, takeNF p s.approved_users_vault = some (ub, v₁)) ∧
    (∀ (s : UserAuthState) (b : Badge), Reachable s →
        b.resource = temporary_badge_address →
        (lookupA b.id s.approved_users).isSome →
        ∃ r, claim_user b s = Except.ok r) := by
  refine ⟨inv_init, fun s op hs => inv_step op hs, fun s hs => inv_reachable hs, ?_, ?_⟩
  · intro s b p hs hl
    exact takeNF_isSome (hs.owed p (lookupA_mem_vals hl))
  · intro s b hreach hres hsome
    obtain ⟨p, hl⟩ := Option.isSome_iff_exists.mp hsome
    have hs := inv_reachable hreach
    obtain ⟨ub, v₁, htk⟩ := takeNF_isSome (hs.owed p (lookupA_mem_vals hl))
    refine ⟨(ub, { s with
                   approved_users := eraseA b.id s.approved_users
                   approved_users_vault := v₁ }), ?_⟩
    rw [claim_user, if_neg (by simp [hres])]
    simp only [hl, htk]

/-- Witness for `ledger_pool_invariant`: in the reachable state after
request and approval of a user, the claim succeeds. -/
theorem ledger_pool_invariant_witness :
    ∃ r, claim_user ⟨temporary_badge_address, 0, aliceName⟩
        (run [Op.request aliceName, Op.approve true aliceName] initState) =
      Except.ok r :=
  ledger_pool_invariant.2.2.2.2
    (run [Op.request aliceName, Op.approve true aliceName] initState)
    ⟨temporary_badge_address, 0, aliceName⟩
    ⟨[Op.request aliceName, Op.approve true aliceName], rfl⟩ rfl rfl

end UserAuth
